import Mathlib

/-!
# Verification of the sandboxed search & retrieval engine (`src/mcp_server/tools.py`)

Shallow embedding of the core of the `legalgenius` repository: the path
sandbox (`Sandbox.resolve_inside`, `Sandbox.line_start_offset`), the boolean
query compiler (`_parse_boolean_query_to_dnf`), the whole-file boolean search
(`file_search`), the byte-range reader (`read_file_range`) and the
post-processing (year sort, truncation, missing-binary error) of `search_rg`.

Modelling conventions:
* Python `bytes` are `List Nat` (each entry < 256 at use sites).
* Python `str` is `List Char` (a list of unicode scalar values; Python's
  `errors="replace"` UTF-8 decoder never produces surrogates, so `Char`
  is adequate).
* Machine integers are `Int`/`Nat`; Python slices and clamps are spelled
  out with `max`/`min`/`List.drop`/`List.take`.
* Recursive scanners use a fuel argument bounded below by an explicit
  call-depth measure so that all definitions are structural and reduce
  inside `decide`/`rfl`.
* The filesystem is a pure value: a corpus is the list of regular files
  below the sandbox root in `rglob` traversal order, each with its raw
  bytes.  The external `ripgrep` binary is an external collaborator; its
  (post-assembly) match list enters the model as a parameter.
-/

namespace LegalGenius

/-! ## Python character classes (modelled from `re`/`str` semantics)

`isPySpace` models the `\s` class / `str.isspace` (ASCII whitespace plus the
unicode whitespace codepoints relevant to `str.split`/`strip`).  `isWordChar`
models `\w` for the word-boundary checks of the tokenizer: ASCII
alphanumerics, `_`, and any non-ASCII non-space codepoint (the queries the
repository handles contain only letters beyond ASCII; the boundary checks
only ever compare against delimiter characters, see `tokenizeAux`). -/

def isPySpace (c : Char) : Bool :=
  c = ' ' ∨ c = '\t' ∨ c = '\n' ∨ c = '\r' ∨ c.val = 0x0b ∨ c.val = 0x0c ∨
  (0x1c ≤ c.val ∧ c.val ≤ 0x1f) ∨ c.val = 0x85 ∨ c.val = 0xa0 ∨
  c.val = 0x1680 ∨ (0x2000 ≤ c.val ∧ c.val ≤ 0x200a) ∨
  c.val = 0x2028 ∨ c.val = 0x2029 ∨ c.val = 0x202f ∨ c.val = 0x205f ∨
  c.val = 0x3000

def isWordChar (c : Char) : Bool :=
  c.isAlphanum ∨ c = '_' ∨ (128 ≤ c.val ∧ ¬ isPySpace c)

/-- Model of Python `str.lower` restricted to ASCII and Latin-1 letters
(the corpus is German legal text; `À`–`Þ` except `×` map by `+0x20`). -/
def pyLower (c : Char) : Char :=
  if 'A' ≤ c ∧ c ≤ 'Z' then Char.ofNat (c.val.toNat + 32)
  else if 0xc0 ≤ c.val ∧ c.val ≤ 0xde ∧ c.val ≠ 0xd7 then
    Char.ofNat (c.val.toNat + 32)
  else c

/-- Model of Python `str.upper` restricted likewise (used only to compare
tokens against the ASCII keywords `AND`/`OR`). -/
def pyUpper (c : Char) : Char :=
  if 'a' ≤ c ∧ c ≤ 'z' then Char.ofNat (c.val.toNat - 32)
  else if 0xe0 ≤ c.val ∧ c.val ≤ 0xfe ∧ c.val ≠ 0xf7 then
    Char.ofNat (c.val.toNat - 32)
  else c

def lowerStr (s : List Char) : List Char := s.map pyLower

def upperStr (s : List Char) : List Char := s.map pyUpper

/-! ## UTF-8 codec (Python `bytes.decode("utf-8", errors="replace")` /
`str.encode("utf-8")`)

The decoder follows the "maximal subpart" replacement policy CPython uses:
an ill-formed sequence contributes one U+FFFD per maximal valid prefix of a
sequence (or per offending byte). -/

def isCont (b : Nat) : Bool := 0x80 ≤ b ∧ b ≤ 0xbf

/-- Decode with fuel; fuel ≥ list length guarantees full consumption since
every step consumes at least one byte. -/
def utf8dAux : Nat → List Nat → List Char
  | 0, _ => []
  | _ + 1, [] => []
  | f + 1, b :: rest =>
    if b < 0x80 then Char.ofNat b :: utf8dAux f rest
    else if 0xc2 ≤ b ∧ b ≤ 0xdf then
      match rest with
      | b2 :: rest2 =>
        if isCont b2 then Char.ofNat ((b - 0xc0) * 64 + (b2 - 0x80)) :: utf8dAux f rest2
        else '�' :: utf8dAux f rest
      | [] => ['�']
    else if 0xe0 ≤ b ∧ b ≤ 0xef then
      match rest with
      | b2 :: rest2 =>
        let lo2 : Nat := if b = 0xe0 then 0xa0 else 0x80
        let hi2 : Nat := if b = 0xed then 0x9f else 0xbf
        if lo2 ≤ b2 ∧ b2 ≤ hi2 then
          match rest2 with
          | b3 :: rest3 =>
            if isCont b3 then
              Char.ofNat ((b - 0xe0) * 4096 + (b2 - 0x80) * 64 + (b3 - 0x80)) ::
                utf8dAux f rest3
            else '�' :: utf8dAux f rest2
          | [] => ['�']
        else '�' :: utf8dAux f rest
      | [] => ['�']
    else if 0xf0 ≤ b ∧ b ≤ 0xf4 then
      match rest with
      | b2 :: rest2 =>
        let lo2 : Nat := if b = 0xf0 then 0x90 else 0x80
        let hi2 : Nat := if b = 0xf4 then 0x8f else 0xbf
        if lo2 ≤ b2 ∧ b2 ≤ hi2 then
          match rest2 with
          | b3 :: rest3 =>
            if isCont b3 then
              match rest3 with
              | b4 :: rest4 =>
                if isCont b4 then
                  Char.ofNat ((b - 0xf0) * 262144 + (b2 - 0x80) * 4096 +
                    (b3 - 0x80) * 64 + (b4 - 0x80)) :: utf8dAux f rest4
                else '�' :: utf8dAux f rest3
              | [] => ['�']
            else '�' :: utf8dAux f rest2
          | [] => ['�']
        else '�' :: utf8dAux f rest
      | [] => ['�']
    else '�' :: utf8dAux f rest

def utf8DecodeReplace (bs : List Nat) : List Char := utf8dAux bs.length bs

/-- UTF-8 encoding of one unicode scalar value. -/
def utf8EncodeChar (c : Char) : List Nat :=
  let n := c.val.toNat
  if n < 0x80 then [n]
  else if n < 0x800 then [0xc0 + n / 64, 0x80 + n % 64]
  else if n < 0x10000 then [0xe0 + n / 4096, 0x80 + n / 64 % 64, 0x80 + n % 64]
  else [0xf0 + n / 262144, 0x80 + n / 4096 % 64, 0x80 + n / 64 % 64, 0x80 + n % 64]

def utf8Encode (s : List Char) : List Nat := (s.map utf8EncodeChar).flatten

/-! ## Python `splitlines(keepends=True)`

`bytes.splitlines` breaks only at the ASCII boundaries `\r\n`, `\r`, `\n`;
`str.splitlines` additionally breaks at `\v`, `\f`, `\x1c`–`\x1e`, `\x85`,
` `, ` `. -/

def bSplitAux (acc : List Nat) : List Nat → List (List Nat)
  | [] => if acc = [] then [] else [acc.reverse]
  | 13 :: 10 :: rest => (acc.reverse ++ [13, 10]) :: bSplitAux [] rest
  | 13 :: rest => (acc.reverse ++ [13]) :: bSplitAux [] rest
  | 10 :: rest => (acc.reverse ++ [10]) :: bSplitAux [] rest
  | b :: rest => bSplitAux (b :: acc) rest

/-- `bytes.splitlines(keepends=True)`. -/
def bSplitlines (bs : List Nat) : List (List Nat) := bSplitAux [] bs

def isStrLineBreak (c : Char) : Bool :=
  c = '\n' ∨ c = '\r' ∨ c.val = 0x0b ∨ c.val = 0x0c ∨
  (0x1c ≤ c.val ∧ c.val ≤ 0x1e) ∨ c.val = 0x85 ∨
  c.val = 0x2028 ∨ c.val = 0x2029

def sSplitAux (acc : List Char) : List Char → List (List Char)
  | [] => if acc = [] then [] else [acc.reverse]
  | '\r' :: '\n' :: rest => (acc.reverse ++ ['\r', '\n']) :: sSplitAux [] rest
  | c :: rest =>
    if isStrLineBreak c then (acc.reverse ++ [c]) :: sSplitAux [] rest
    else sSplitAux (c :: acc) rest

/-- `str.splitlines(keepends=True)`. -/
def sSplitlines (s : List Char) : List (List Char) := sSplitAux [] s

/-- Python slice `bs[a:b]` for `0 ≤ a`, `b` arbitrary (`b ≤ a` gives `[]`). -/
def pySlice (bs : List Nat) (a b : Nat) : List Nat := (bs.drop a).take (b - a)

/-! ## `read_file_range` (tools.py lines 555-586)

The sandbox resolution step is modelled separately (`resolve_inside`); here
the file already is a byte list.  The `Config` defaults apply (no
`configs/config.yaml` in the repository): `context_bytes = 300`.  The stages
of the function are named so the truncation condition can be stated. -/

/-- `context = _config.context_bytes if context is None else int(context)`. -/
def rfrContext (context : Option Int) : Int := context.getD 300

/-- `start = max(0, int(start) - context)` followed by
`start = max(0, min(start, len(file_bytes)))`. -/
def rfrStart (B : List Nat) (s : Int) (context : Option Int) : Int :=
  max 0 (min (max 0 (s - rfrContext context)) (B.length : Int))

/-- `end = int(end) + context` followed by
`end = max(start, min(end, len(file_bytes)))`. -/
def rfrEnd (B : List Nat) (s e : Int) (context : Option Int) : Int :=
  max (rfrStart B s context) (min (e + rfrContext context) (B.length : Int))

/-- `text = file_bytes[start:end].decode("utf-8", errors="replace")`. -/
def rfrFullText (B : List Nat) (s e : Int) (context : Option Int) : List Char :=
  utf8DecodeReplace (pySlice B (rfrStart B s context).toNat (rfrEnd B s e context).toNat)

/-- Whether the `max_lines` branch truncates: `ml > 0 and len(lines) > ml`. -/
def rfrTruncates (B : List Nat) (s e : Int) (context : Option Int)
    (maxLines : Option Int) : Bool :=
  match maxLines with
  | none => false
  | some ml => 0 < ml ∧ (ml : Int) < ((sSplitlines (rfrFullText B s e context)).length : Int)

structure RangeResult where
  start : Int
  stop : Int
  text : List Char
  deriving Repr, DecidableEq

/-- `text = "".join(lines[:ml])` in the truncation branch. -/
def rfrTruncText (B : List Nat) (s e : Int) (context : Option Int)
    (maxLines : Option Int) : List Char :=
  ((sSplitlines (rfrFullText B s e context)).take (maxLines.getD 20).toNat).flatten

/-- `read_file_range(path, start, end, context=None, max_lines=20)`: the
returned dict `{path, start, end, text}` (the echoed `path` is omitted; the
`stop` field is the returned `end`).  In the truncation branch the end
offset is recomputed as `start + len(text.encode("utf-8"))`. -/
def read_file_range (B : List Nat) (s e : Int) (context : Option Int)
    (maxLines : Option Int) : RangeResult :=
  if rfrTruncates B s e context maxLines then
    ⟨rfrStart B s context,
      rfrStart B s context + ((utf8Encode (rfrTruncText B s e context maxLines)).length : Int),
      rfrTruncText B s e context maxLines⟩
  else
    ⟨rfrStart B s context, rfrEnd B s e context, rfrFullText B s e context⟩

/-! ## The sandbox (`Sandbox`, tools.py lines 38-87)

An absolute path is its list of components (`/etc/passwd` is
`["etc", "passwd"]`, the filesystem root `/` is `[]`).  `Sandbox.root` is
already `resolve()`d by the constructor, hence component-normalized.  The
model filesystem contains no symlinks, so Python's `Path.resolve()` acts
lexically: `.` and empty components vanish, `..` pops one component and is
a no-op at `/`. -/

/-- `str(Path)` for an absolute path: leading `/`, components joined by
`/`; the filesystem root renders as `"/"`. -/
def renderAbs (comps : List (List Char)) : List Char :=
  if comps = [] then ['/'] else comps.flatMap (fun c => '/' :: c)

/-- The components of a relative path string: split on `/`, drop empty and
`.` components (what `Path("a//.//b").parts` keeps, `..` included). -/
def relComponents (s : List Char) : List (List Char) :=
  (s.splitOn '/').filter (fun c => ¬ (c = [] ∨ c = ['.']))

/-- `(self.root / relative_path).resolve()` on a symlink-free tree:
fold the relative components over the resolved root, `..` popping. -/
def resolveComps (root : List (List Char)) (comps : List (List Char)) :
    List (List Char) :=
  comps.foldl (fun acc c => if c = ['.', '.'] then acc.dropLast else acc ++ [c]) root

/-- `Sandbox.resolve_inside`: resolve the candidate, then the **string
prefix** check `str(candidate).startswith(str(self.root))`; `none` models
the raised `PermissionError("Path breakout attempt detected")`. -/
def resolve_inside (root : List (List Char)) (rel : List Char) :
    Option (List (List Char)) :=
  let candidate := resolveComps root (relComponents rel)
  if (renderAbs root).isPrefixOf (renderAbs candidate) then some candidate else none



/-- A component-wise (segment) prefix of absolute paths yields a string
prefix of their rendered forms. -/
theorem renderAbs_prefix_of_prefix {a b : List (List Char)} (h : a <+: b) :
    renderAbs a <+: renderAbs b := by
  obtain ⟨t, rfl⟩ := h
  rcases eq_or_ne t [] with rfl | ht
  · simp
  rcases eq_or_ne a [] with rfl | ha
  · cases t with
    | nil => simp
    | cons c cs =>
      refine ⟨c ++ cs.flatMap (fun d => '/' :: d), ?_⟩
      simp [renderAbs]
  · have hab : a ++ t ≠ [] := by simp [ha]
    refine ⟨t.flatMap (fun d => '/' :: d), ?_⟩
    simp [renderAbs, ha, hab]


/-- Claim C1, counterexample: the traversal path `../../etc/passwd` is NOT
rejected for every sandbox root — with root `/etc` it resolves to
`/etc/passwd`, which passes the string-prefix check, so `resolve_inside`
succeeds instead of raising `PermissionError`. -/
theorem resolve_inside_traversal_counterexample :
    resolve_inside ["etc".data] "../../etc/passwd".data =
      some ["etc".data, "passwd".data] := by decide

/-- Claim C1 (amended): `resolve_inside` fails exactly when the rendered
resolved candidate does not have the rendered root as a string prefix.  In
particular every relative path whose resolution lies component-wise inside
the root succeeds and returns a path string-prefixed by the root, while a
`../../etc/passwd`-style traversal is rejected for every root whose string
form is not itself a prefix of the escaped target (e.g. `/data/corpus`),
though not for roots such as `/` or `/etc`. -/
theorem resolve_inside_amended (root : List (List Char)) (rel : List Char) :
    (root <+: resolveComps root (relComponents rel) →
      resolve_inside root rel = some (resolveComps root (relComponents rel)) ∧
      renderAbs root <+: renderAbs (resolveComps root (relComponents rel))) ∧
    (¬ renderAbs root <+: renderAbs (resolveComps root (relComponents rel)) →
      resolve_inside root rel = none) := by
  constructor
  · intro h
    have hp := renderAbs_prefix_of_prefix h
    have hb : (renderAbs root).isPrefixOf
        (renderAbs (resolveComps root (relComponents rel))) = true := by
      rw [List.isPrefixOf_iff_prefix]
      exact hp
    exact ⟨by simp [resolve_inside, hb], hp⟩
  · intro h
    have hb : (renderAbs root).isPrefixOf
        (renderAbs (resolveComps root (relComponents rel))) = false := by
      rw [Bool.eq_false_iff]
      intro hc
      exact h (List.isPrefixOf_iff_prefix.mp hc)
    simp [resolve_inside, hb]

/-- Witness for `resolve_inside_amended`: a path inside `/data/corpus`
succeeds with the root-prefixed result, and the `../../etc/passwd`
traversal is rejected for root `/data/corpus`. -/
theorem resolve_inside_amended_witness :
    (resolve_inside ["data".data, "corpus".data] "sub/file.md".data =
        some ["data".data, "corpus".data, "sub".data, "file.md".data] ∧
      renderAbs ["data".data, "corpus".data] <+:
        renderAbs ["data".data, "corpus".data, "sub".data, "file.md".data]) ∧
    resolve_inside ["data".data, "corpus".data] "../../etc/passwd".data = none := by
  constructor
  · have h := (resolve_inside_amended ["data".data, "corpus".data]
      "sub/file.md".data).1 (by decide)
    exact ⟨by rw [h.1]; decide, by
      have := h.2
      revert this
      decide⟩
  · exact (resolve_inside_amended ["data".data, "corpus".data]
      "../../etc/passwd".data).2 (by decide)


theorem rfrStart_nonneg (B : List Nat) (s : Int) (c : Option Int) :
    0 ≤ rfrStart B s c := le_max_left 0 _

theorem rfrStart_le_length (B : List Nat) (s : Int) (c : Option Int) :
    rfrStart B s c ≤ (B.length : Int) :=
  max_le (Int.natCast_nonneg _) (min_le_right _ _)

theorem rfrStart_le_end (B : List Nat) (s e : Int) (c : Option Int) :
    rfrStart B s c ≤ rfrEnd B s e c := le_max_left _ _

theorem rfrEnd_le_length (B : List Nat) (s e : Int) (c : Option Int) :
    rfrEnd B s e c ≤ (B.length : Int) :=
  max_le (rfrStart_le_length B s c) (min_le_right _ _)

/-- Claim C2 (amended): `read_file_range` is total (never raises); the
returned `start` is clamped into `[0, file_byte_length]` and `start ≤ end`
always holds.  When `max_lines` does not truncate, the returned `end` is
also clamped into `[0, file_byte_length]` and the returned text is the
replacing UTF-8 decoding of the file bytes between the returned `start`
and `end`; when truncation occurs, `end` is instead recomputed as
`start + len(utf8_encode(text))`, which can exceed the file length when
replacement characters expand invalid bytes (see the counterexample). -/
theorem read_file_range_amended (B : List Nat) (s e : Int) (c ml : Option Int) :
    0 ≤ (read_file_range B s e c ml).start ∧
    (read_file_range B s e c ml).start ≤ (B.length : Int) ∧
    (read_file_range B s e c ml).start ≤ (read_file_range B s e c ml).stop ∧
    (rfrTruncates B s e c ml = false →
      (read_file_range B s e c ml).stop ≤ (B.length : Int) ∧
      (read_file_range B s e c ml).text =
        utf8DecodeReplace (pySlice B (read_file_range B s e c ml).start.toNat
          (read_file_range B s e c ml).stop.toNat)) ∧
    (rfrTruncates B s e c ml = true →
      (read_file_range B s e c ml).stop =
        (read_file_range B s e c ml).start +
          ((utf8Encode (read_file_range B s e c ml).text).length : Int)) := by
  cases hT : rfrTruncates B s e c ml
  · have hc : ¬ (rfrTruncates B s e c ml = true) := by rw [hT]; exact Bool.false_ne_true
    rw [read_file_range, if_neg hc]
    refine ⟨rfrStart_nonneg B s c, rfrStart_le_length B s c, rfrStart_le_end B s e c,
      ?_, ?_⟩
    · intro _
      exact ⟨rfrEnd_le_length B s e c, rfl⟩
    · intro h
      exact absurd h (by decide)
  · rw [read_file_range, if_pos hT]
    refine ⟨rfrStart_nonneg B s c, rfrStart_le_length B s c, ?_, ?_, ?_⟩
    · exact le_add_of_nonneg_right (Int.natCast_nonneg _)
    · intro h
      exact absurd h (by decide)
    · intro _
      rfl

/-- Witness for `read_file_range_amended` at a concrete non-truncating call:
negative raw `start`, overshooting raw `end`, an invalid byte in the file. -/
theorem read_file_range_amended_witness :
    rfrTruncates [97, 255, 10] (-7) 99 (some 2) (some 20) = false ∧
    (read_file_range [97, 255, 10] (-7) 99 (some 2) (some 20)).stop ≤
      (([97, 255, 10] : List Nat).length : Int) ∧
    (read_file_range [97, 255, 10] (-7) 99 (some 2) (some 20)).text =
      utf8DecodeReplace (pySlice [97, 255, 10]
        (read_file_range [97, 255, 10] (-7) 99 (some 2) (some 20)).start.toNat
        (read_file_range [97, 255, 10] (-7) 99 (some 2) (some 20)).stop.toNat) := by
  have h := (read_file_range_amended [97, 255, 10] (-7) 99 (some 2) (some 20)).2.2.2.1
    (by decide)
  exact ⟨by decide, h.1, h.2⟩

/-- A 41-byte file: twenty lines `b"\xff\n"` and a final `b"a"`. -/
def c2File : List Nat := (List.replicate 20 ([255, 10] : List Nat)).flatten ++ [97]

/-- Claim C2, counterexample: with the default `max_lines = 20`, reading all
of `c2File` truncates to the first twenty lines; each invalid `0xff` byte
decoded to U+FFFD re-encodes to three bytes, so the returned `end` offset is
`80`, far beyond the 41-byte file — the returned `end` is *not* clamped
into `[0, file_byte_length]` as the claim states. -/
theorem read_file_range_end_counterexample :
    ¬ ((read_file_range c2File 0 41 (some 0) (some 20)).stop ≤
      ((c2File).length : Int)) := by decide

/-- Claim C3 (confirmed): whenever the `max_lines` limit truncates the
decoded text, the returned `end` byte offset equals the returned `start`
plus the UTF-8 encoded byte length of the returned text. -/
theorem read_file_range_truncation_end (B : List Nat) (s e : Int)
    (c : Option Int) (m : Int) (h : rfrTruncates B s e c (some m) = true) :
    (read_file_range B s e c (some m)).stop =
      (read_file_range B s e c (some m)).start +
        ((utf8Encode (read_file_range B s e c (some m)).text).length : Int) := by
  simp [read_file_range, h]

/-- Witness for `read_file_range_truncation_end`: the file `b"a\nb\nc"`
read whole with `max_lines = 1` truncates to its first line. -/
theorem read_file_range_truncation_end_witness :
    rfrTruncates [97, 10, 98, 10, 99] 0 5 (some 0) (some 1) = true ∧
    (read_file_range [97, 10, 98, 10, 99] 0 5 (some 0) (some 1)).stop =
      (read_file_range [97, 10, 98, 10, 99] 0 5 (some 0) (some 1)).start +
        ((utf8Encode (read_file_range [97, 10, 98, 10, 99] 0 5
          (some 0) (some 1)).text).length : Int) :=
  ⟨by decide, read_file_range_truncation_end _ _ _ _ _ (by decide)⟩


/-! ## Line offsets (`Sandbox._build_line_offset_cache` /
`Sandbox.line_start_offset`, tools.py lines 64-87) -/

/-- The running byte offsets of the chunks produced by `splitlines`:
`byte_index` starts at `idx` and grows by each chunk's length. -/
def chunkStarts : Nat → List (List Nat) → List Nat
  | _, [] => []
  | idx, c :: cs => idx :: chunkStarts (idx + c.length) cs

/-- `Sandbox._build_line_offset_cache`: a placeholder `0` aligns indices so
1-based line numbers index directly; an empty file still gets one line. -/
def _build_line_offset_cache (B : List Nat) : List Nat :=
  let offsets := 0 :: chunkStarts 0 (bSplitlines B)
  if offsets.length = 1 then offsets ++ [0] else offsets

/-- `Sandbox.line_start_offset`: clamp the 1-based line number into
`[1, num_lines]` and look the offset up. -/
def line_start_offset (B : List Nat) (lineNumber : Int) : Nat :=
  let offsets := _build_line_offset_cache B
  let n1 : Int := if lineNumber < 1 then 1 else lineNumber
  let n2 : Nat := if (offsets.length : Int) ≤ n1 then offsets.length - 1 else n1.toNat
  offsets.getD n2 0

theorem bSplitAux_flatten (acc : List Nat) (l : List Nat) :
    (bSplitAux acc l).flatten = acc.reverse ++ l := by
  induction acc, l using bSplitAux.induct with
  | case1 => simp [bSplitAux]
  | case2 acc h => simp [bSplitAux, h]
  | case3 acc rest ih => simp [bSplitAux, ih]
  | case4 acc rest h ih => simp [bSplitAux, h, ih]
  | case5 acc rest ih => simp [bSplitAux, ih]
  | case6 acc b rest h1 h2 h3 ih => simp [bSplitAux, h1, h2, h3, ih]

theorem bSplitlines_flatten (B : List Nat) : (bSplitlines B).flatten = B := by
  simpa using bSplitAux_flatten [] B


theorem chunkStarts_length (idx : Nat) (cs : List (List Nat)) :
    (chunkStarts idx cs).length = cs.length := by
  induction cs generalizing idx with
  | nil => rfl
  | cons c cs ih => simp [chunkStarts, ih]

theorem chunkStarts_getD (cs : List (List Nat)) (k idx : Nat) (h : k < cs.length) :
    (chunkStarts idx cs).getD k 0 = idx + ((cs.take k).flatten).length := by
  induction cs generalizing idx k with
  | nil => simp at h
  | cons c cs ih =>
    cases k with
    | zero => simp [chunkStarts]
    | succ k =>
      have hk : k < cs.length := by simpa using h
      simp only [chunkStarts, List.getD_cons_succ, List.take_succ_cons,
        List.flatten_cons, List.length_append]
      rw [ih _ _ hk]
      omega

theorem build_line_offset_cache_getD (B : List Nat) (n : Nat) (h1 : 1 ≤ n)
    (h2 : n ≤ (bSplitlines B).length) :
    (_build_line_offset_cache B).getD n 0 =
      (((bSplitlines B).take (n - 1)).flatten).length := by
  have hc : (bSplitlines B).length ≠ 0 := by omega
  have hlen : (0 :: chunkStarts 0 (bSplitlines B)).length ≠ 1 := by
    simp [chunkStarts_length, hc]
  rw [_build_line_offset_cache]
  simp only [hlen, if_false]
  obtain ⟨m, rfl⟩ : ∃ m, n = m + 1 := ⟨n - 1, by omega⟩
  rw [List.getD_cons_succ]
  rw [chunkStarts_getD _ _ _ (by omega)]
  simp

theorem line_start_offset_eq (B : List Nat) (n : Nat) (h1 : 1 ≤ n)
    (h2 : n ≤ (bSplitlines B).length) :
    line_start_offset B (n : Int) =
      (((bSplitlines B).take (n - 1)).flatten).length := by
  have hc : (bSplitlines B).length ≠ 0 := by omega
  have hlen : (_build_line_offset_cache B).length = (bSplitlines B).length + 1 := by
    rw [_build_line_offset_cache]
    have : (0 :: chunkStarts 0 (bSplitlines B)).length ≠ 1 := by
      simp [chunkStarts_length, hc]
    simp only [this, if_false]
    simp [chunkStarts_length]
  rw [line_start_offset]
  have hn1 : ¬ ((n : Int) < 1) := by omega
  have hn2 : ¬ (((_build_line_offset_cache B).length : Int) ≤ (n : Int)) := by
    rw [hlen]; push_cast; omega
  simp only [hn1, if_false, hn2]
  simpa using build_line_offset_cache_getD B n h1 h2

theorem take_flatten_length_le (B : List Nat) (k : Nat) :
    (((bSplitlines B).take k).flatten).length ≤ B.length := by
  conv_rhs => rw [← bSplitlines_flatten B]
  conv_rhs => rw [← List.take_append_drop k (bSplitlines B)]
  rw [List.flatten_append, List.length_append]
  omega

theorem flatten_drop_take (xs : List (List Nat)) (k : Nat) :
    (xs.flatten).drop (((xs.take k).flatten).length) = (xs.drop k).flatten := by
  have h : xs.flatten = (xs.take k).flatten ++ (xs.drop k).flatten := by
    rw [← List.flatten_append, List.take_append_drop]
  rw [h, List.drop_left]

theorem drop_line_start (B : List Nat) (n : Nat) (h1 : 1 ≤ n)
    (h2 : n ≤ (bSplitlines B).length) :
    B.drop (line_start_offset B (n : Int)) = ((bSplitlines B).drop (n - 1)).flatten := by
  rw [line_start_offset_eq B n h1 h2]
  have h := flatten_drop_take (bSplitlines B) (n - 1)
  rwa [bSplitlines_flatten] at h


/-- Reading a zero-width range (`start = end`, `context = 0`) at an in-file
offset returns that offset unchanged and an empty text. -/
theorem read_file_range_point (B : List Nat) (off : Nat) (hoff : off ≤ B.length)
    (ml : Option Int) :
    read_file_range B (off : Int) (off : Int) (some 0) ml =
      ⟨(off : Int), (off : Int), []⟩ := by
  have hs : rfrStart B (off : Int) (some 0) = (off : Int) := by
    rw [rfrStart, rfrContext]
    simp only [Option.getD_some]
    omega
  have he : rfrEnd B (off : Int) (off : Int) (some 0) = (off : Int) := by
    rw [rfrEnd, rfrContext, hs]
    simp only [Option.getD_some]
    omega
  have htext : rfrFullText B (off : Int) (off : Int) (some 0) = [] := by
    rw [rfrFullText, hs, he]
    simp [pySlice, utf8DecodeReplace, utf8dAux]
  have htr : rfrTruncates B (off : Int) (off : Int) (some 0) ml = false := by
    cases ml with
    | none => rfl
    | some m =>
      simp only [rfrTruncates, htext]
      rw [decide_eq_false_iff_not]
      rw [show sSplitlines ([] : List Char) = [] from rfl]
      simp only [List.length_nil, Nat.cast_zero]
      omega
  rw [read_file_range, if_neg (by rw [htr]; exact Bool.false_ne_true), hs, he, htext]

/-- Claim C6 (confirmed): for every file and every line number `n` within
range, `line_start_offset(path, n)` followed by
`read_file_range(path, offset, offset, context=0)` echoes the offset back
unchanged (with an empty zero-width text), and the file bytes from that
offset are exactly the concatenation of lines `n, n+1, …` — i.e. the
returned slice position begins exactly at the start of line `n`. -/
theorem line_offset_round_trip (B : List Nat) (n : Nat) (h1 : 1 ≤ n)
    (h2 : n ≤ (bSplitlines B).length) :
    (read_file_range B (line_start_offset B (n : Int) : Int)
        (line_start_offset B (n : Int) : Int) (some 0) (some 20)).start =
      (line_start_offset B (n : Int) : Int) ∧
    (read_file_range B (line_start_offset B (n : Int) : Int)
        (line_start_offset B (n : Int) : Int) (some 0) (some 20)).stop =
      (line_start_offset B (n : Int) : Int) ∧
    (read_file_range B (line_start_offset B (n : Int) : Int)
        (line_start_offset B (n : Int) : Int) (some 0) (some 20)).text = [] ∧
    B.drop (line_start_offset B (n : Int)) = ((bSplitlines B).drop (n - 1)).flatten := by
  have hoff : line_start_offset B (n : Int) ≤ B.length := by
    rw [line_start_offset_eq B n h1 h2]
    exact take_flatten_length_le B (n - 1)
  rw [read_file_range_point B _ hoff]
  exact ⟨rfl, rfl, rfl, drop_line_start B n h1 h2⟩

/-- Witness for `line_offset_round_trip`: the file `b"ab\ncd\n"` at line 2,
whose start offset is byte 3. -/
theorem line_offset_round_trip_witness :
    line_start_offset [97, 98, 10, 99, 100, 10] (2 : Int) = 3 ∧
    [97, 98, 10, 99, 100, 10].drop (line_start_offset [97, 98, 10, 99, 100, 10] (2 : Int)) =
      ((bSplitlines [97, 98, 10, 99, 100, 10]).drop 1).flatten :=
  ⟨by decide,
    (line_offset_round_trip [97, 98, 10, 99, 100, 10] 2 (by decide) (by decide)).2.2.2⟩


/-! ## Boolean query compiler (`_parse_boolean_query_to_dnf`, tools.py
lines 156-230)

Tokenization models `re.findall` with the pattern
`\(|\)|\bAND\b|\bOR\b|[^()\s]+` (IGNORECASE): at each scan position the
alternatives are tried in order, a keyword matches only between word
boundaries, and otherwise a maximal run of non-paren non-space characters
forms a term.  `prev` carries the previously consumed character for the
leading word-boundary test. -/

def strAND : List Char := ['A', 'N', 'D']

def strOR : List Char := ['O', 'R']

/-- The leading `\b`: the previous character (if any) is not a word
character. -/
def boundaryOk (prev : Option Char) : Bool :=
  match prev with
  | none => true
  | some p => ! isWordChar p

/-- The trailing `\b`: end of input or a non-word character follows. -/
def afterOk (l : List Char) : Bool :=
  match l with
  | [] => true
  | c :: _ => ! isWordChar c

/-- Does `\b<kw>\b` (IGNORECASE) match at the head of `l`, given the
character just before the position? -/
def kwAt (prev : Option Char) (l : List Char) (kw : List Char) : Bool :=
  ((l.take kw.length).length == kw.length) &&
  (upperStr (l.take kw.length) == kw) &&
  boundaryOk prev && afterOk (l.drop kw.length)

/-- One `findall` scan step per fuel unit; every step consumes at least one
character, so fuel `length + 1` never runs out. -/
def tokenizeAux : Nat → Option Char → List Char → List (List Char)
  | 0, _, _ => []
  | _ + 1, _, [] => []
  | f + 1, prev, c :: rest =>
    if c = '(' ∨ c = ')' then [c] :: tokenizeAux f (some c) rest
    else if kwAt prev (c :: rest) strAND then
      (c :: rest.take 2) :: tokenizeAux f (some ((c :: rest.take 2).getLastD c)) (rest.drop 2)
    else if kwAt prev (c :: rest) strOR then
      (c :: rest.take 1) :: tokenizeAux f (some ((c :: rest.take 1).getLastD c)) (rest.drop 1)
    else if isPySpace c then tokenizeAux f (some c) rest
    else
      let run := c :: rest.takeWhile (fun d => ¬ (d = '(' ∨ d = ')' ∨ isPySpace d))
      run :: tokenizeAux f (some (run.getLastD c)) (rest.drop (run.length - 1))

def tokenize (query : List Char) : List (List Char) :=
  tokenizeAux (query.length + 1) none query

/-- A query in disjunctive normal form: a list of conjunctions, each a list
of term strings. -/
abbrev DNF := List (List (List Char))

/-- `dict.fromkeys(a + b)`: keep the first occurrence of each key. -/
def dedupAux (seen : List (List Char)) : List (List Char) → List (List Char)
  | [] => []
  | x :: xs => if x ∈ seen then dedupAux seen xs else x :: dedupAux (x :: seen) xs

def dedupFirst (l : List (List Char)) : List (List Char) := dedupAux [] l

/-- `for a in factors: for b in rhs: new_conjs.append(list(dict.fromkeys(a + b)))`. -/
def distributeAnd (a b : DNF) : DNF :=
  (a.map (fun x => b.map (fun y => dedupFirst (x ++ y)))).flatten

/-- `if peek() == ")": consume()` after a parenthesized group. -/
def closeParen : List (List Char) → List (List Char)
  | u :: rest2 => if u = [')'] then rest2 else u :: rest2
  | [] => []

mutual

/-- `parse_expr`: `term (OR term)*`.  Fuel-out returns `([[]], toks)`,
matching `parse_factor`'s defensive empty factor; the top-level call is
made with fuel exceeding the recursion depth, so fuel-out is unreachable. -/
def parse_expr : Nat → List (List Char) → DNF × List (List Char)
  | 0, toks => ([[]], toks)
  | f + 1, toks =>
    parse_expr_loop f (parse_term f toks).1 (parse_term f toks).2

/-- The `while is_op(peek(), "OR")` loop of `parse_expr`. -/
def parse_expr_loop : Nat → DNF → List (List Char) → DNF × List (List Char)
  | 0, terms, toks => (terms, toks)
  | f + 1, terms, toks =>
    match toks with
    | t :: rest =>
      if upperStr t = strOR then
        parse_expr_loop f (terms ++ (parse_term f rest).1) (parse_term f rest).2
      else (terms, t :: rest)
    | [] => (terms, [])

/-- `parse_term`: `factor (AND factor)*`. -/
def parse_term : Nat → List (List Char) → DNF × List (List Char)
  | 0, toks => ([[]], toks)
  | f + 1, toks =>
    parse_term_loop f (parse_factor f toks).1 (parse_factor f toks).2

/-- The `while is_op(peek(), "AND")` loop of `parse_term`, distributing AND
over the accumulated conjunctions. -/
def parse_term_loop : Nat → DNF → List (List Char) → DNF × List (List Char)
  | 0, factors, toks => (factors, toks)
  | f + 1, factors, toks =>
    match toks with
    | t :: rest =>
      if upperStr t = strAND then
        parse_term_loop f (distributeAnd factors (parse_factor f rest).1)
          (parse_factor f rest).2
      else (factors, t :: rest)
    | [] => (factors, [])

/-- `parse_factor`: a parenthesized group, a defensively skipped orphan
operator, or a single term. -/
def parse_factor : Nat → List (List Char) → DNF × List (List Char)
  | 0, toks => ([[]], toks)
  | _ + 1, [] => ([[]], [])
  | f + 1, t :: rest =>
    if t = ['('] then
      ((parse_expr f rest).1, closeParen (parse_expr f rest).2)
    else if upperStr t = strAND ∨ upperStr t = strOR ∨ upperStr t = [')'] then
      ([[]], rest)
    else if t = [] then ([[]], rest)
    else ([[t]], rest)

end

/-- `_parse_boolean_query_to_dnf(query)`: tokenize, recursive-descent parse
to DNF, detect boolean syntax, strip empty conjunctions.  The fuel
`3 * len + 3` exceeds the recursion depth (each descent chain
expr→term→factor consumes a token before recursing again, and each loop
iteration consumes its operator token). -/
def _parse_boolean_query_to_dnf (query : List Char) : Bool × DNF :=
  let raw_tokens := tokenize query
  if raw_tokens = [] then (false, [])
  else
    let dnf := (parse_expr (3 * raw_tokens.length + 3) raw_tokens).1
    let used_boolean := raw_tokens.any (fun t =>
      upperStr t = strAND ∨ upperStr t = strOR ∨ t = ['('] ∨ t = [')'])
    (used_boolean, dnf.filter (fun conj => conj.any (fun t => ¬ (t = []))))


/-- Claim C4, counterexample: on
`"(BGB OR Bürgerliches Gesetzbuch) AND Kündigung"` the compiler does NOT
return the two conjunctions `["BGB","Kündigung"]` and
`["Bürgerliches","Gesetzbuch","Kündigung"]` (nor any equivalent with terms
of both words and `Kündigung`): the grammar has no rule for two adjacent
terms, so `parse_expr` stops at the bare token `"Gesetzbuch"` and the rest
of the query (including `AND Kündigung`) is silently discarded. -/
theorem dnf_example_counterexample :
    ¬ (_parse_boolean_query_to_dnf
        "(BGB OR Bürgerliches Gesetzbuch) AND Kündigung".data =
      (true, [["BGB".data, "Kündigung".data],
        ["Bürgerliches".data, "Gesetzbuch".data, "Kündigung".data]])) := by decide

/-- Claim C4 (amended): on the same query the compiler returns
`used_boolean = True` and exactly the two singleton conjunctions
`[["BGB"], ["Bürgerliches"]]`; everything from the unexpected adjacent term
`"Gesetzbuch"` onwards is dropped. -/
theorem dnf_example_amended :
    _parse_boolean_query_to_dnf
        "(BGB OR Bürgerliches Gesetzbuch) AND Kündigung".data =
      (true, [["BGB".data], ["Bürgerliches".data]]) := by decide

theorem mem_of_mem_dedupAux {seen l : List (List Char)} {x : List Char}
    (h : x ∈ dedupAux seen l) : x ∈ l := by
  induction l generalizing seen with
  | nil => simp [dedupAux] at h
  | cons a l ih =>
    rw [dedupAux] at h
    by_cases ha : a ∈ seen
    · simp only [ha, if_true] at h
      exact List.mem_cons_of_mem a (ih h)
    · simp only [ha, if_false] at h
      rcases List.mem_cons.mp h with rfl | h
      · exact List.mem_cons_self _ _
      · exact List.mem_cons_of_mem a (ih h)

theorem dedupAux_not_mem_seen (seen l : List (List Char)) :
    ∀ x ∈ dedupAux seen l, x ∉ seen := by
  induction l generalizing seen with
  | nil => simp [dedupAux]
  | cons a l ih =>
    intro x hx
    rw [dedupAux] at hx
    by_cases ha : a ∈ seen
    · simp only [ha, if_true] at hx
      exact ih seen x hx
    · simp only [ha, if_false] at hx
      rcases List.mem_cons.mp hx with rfl | hx
      · exact ha
      · intro hs
        exact ih (a :: seen) x hx (List.mem_cons_of_mem a hs)

theorem dedupAux_nodup (seen l : List (List Char)) : (dedupAux seen l).Nodup := by
  induction l generalizing seen with
  | nil => simp [dedupAux]
  | cons a l ih =>
    rw [dedupAux]
    by_cases ha : a ∈ seen
    · simp only [ha, if_true]
      exact ih seen
    · simp only [ha, if_false]
      refine List.nodup_cons.mpr ⟨?_, ih (a :: seen)⟩
      intro hmem
      exact dedupAux_not_mem_seen (a :: seen) l a hmem (List.mem_cons_self _ _)

theorem dedupAux_sublist (seen l : List (List Char)) : List.Sublist (dedupAux seen l) l := by
  induction l generalizing seen with
  | nil => simp [dedupAux]
  | cons a l ih =>
    rw [dedupAux]
    by_cases ha : a ∈ seen
    · simp only [ha, if_true]
      exact (ih seen).cons a
    · simp only [ha, if_false]
      exact (ih (a :: seen)).cons₂ a

theorem mem_dedupAux_of_mem (seen l : List (List Char)) (x : List Char)
    (hl : x ∈ l) (hs : x ∉ seen) : x ∈ dedupAux seen l := by
  induction l generalizing seen with
  | nil => simp at hl
  | cons a l ih =>
    rw [dedupAux]
    by_cases ha : a ∈ seen
    · simp only [ha, if_true]
      rcases List.mem_cons.mp hl with rfl | hl
      · exact absurd ha hs
      · exact ih seen hl hs
    · simp only [ha, if_false]
      rcases List.mem_cons.mp hl with rfl | hl
      · exact List.mem_cons_self _ _
      · by_cases hx : x = a
        · subst hx
          exact List.mem_cons_self _ _
        · exact List.mem_cons_of_mem a
            (ih (a :: seen) hl (by simp [hx, hs]))

theorem dedupFirst_nodup (l : List (List Char)) : (dedupFirst l).Nodup :=
  dedupAux_nodup [] l

theorem dedupFirst_sublist (l : List (List Char)) : List.Sublist (dedupFirst l) l :=
  dedupAux_sublist [] l

theorem mem_dedupFirst (l : List (List Char)) (x : List Char) (h : x ∈ l) :
    x ∈ dedupFirst l :=
  mem_dedupAux_of_mem [] l x h (by simp)

theorem distributeAnd_nodup (a b : DNF) :
    ∀ conj ∈ distributeAnd a b, conj.Nodup := by
  intro conj hc
  simp only [distributeAnd, List.mem_flatten, List.mem_map] at hc
  obtain ⟨row, ⟨x, _, rfl⟩, hrow⟩ := hc
  obtain ⟨y, _, rfl⟩ := List.mem_map.mp hrow
  exact dedupFirst_nodup _


/-- Every conjunction produced by any of the mutual parser functions (at
any fuel) is duplicate-free; the loop variants additionally assume this of
their accumulator, which the callers establish. -/
theorem parser_nodup (f : Nat) :
    (∀ toks conj, conj ∈ (parse_factor f toks).1 → conj.Nodup) ∧
    (∀ acc toks conj, (∀ c ∈ acc, List.Nodup c) →
      conj ∈ (parse_term_loop f acc toks).1 → conj.Nodup) ∧
    (∀ toks conj, conj ∈ (parse_term f toks).1 → conj.Nodup) ∧
    (∀ acc toks conj, (∀ c ∈ acc, List.Nodup c) →
      conj ∈ (parse_expr_loop f acc toks).1 → conj.Nodup) ∧
    (∀ toks conj, conj ∈ (parse_expr f toks).1 → conj.Nodup) := by
  induction f with
  | zero =>
    refine ⟨?_, ?_, ?_, ?_, ?_⟩
    · intro toks conj hc
      simp only [parse_factor, List.mem_singleton] at hc
      simp [hc]
    · intro acc toks conj hacc hc
      exact hacc conj hc
    · intro toks conj hc
      simp only [parse_term, List.mem_singleton] at hc
      simp [hc]
    · intro acc toks conj hacc hc
      exact hacc conj hc
    · intro toks conj hc
      simp only [parse_expr, List.mem_singleton] at hc
      simp [hc]
  | succ f ih =>
    obtain ⟨ihF, ihTL, ihT, ihEL, ihE⟩ := ih
    have hFactor : ∀ toks conj, conj ∈ (parse_factor (f + 1) toks).1 → conj.Nodup := by
      intro toks conj hc
      match toks with
      | [] =>
        simp only [parse_factor, List.mem_singleton] at hc
        simp [hc]
      | t :: rest =>
        rw [parse_factor] at hc
        split_ifs at hc with h1 h2 h3
        · exact ihE rest conj hc
        · simp only [List.mem_singleton] at hc
          simp [hc]
        · simp only [List.mem_singleton] at hc
          simp [hc]
        · simp only [List.mem_singleton] at hc
          simp [hc]
    have hTermLoop : ∀ acc toks conj, (∀ c ∈ acc, List.Nodup c) →
        conj ∈ (parse_term_loop (f + 1) acc toks).1 → conj.Nodup := by
      intro acc toks conj hacc hc
      match toks with
      | [] =>
        exact hacc conj hc
      | t :: rest =>
        rw [parse_term_loop] at hc
        split_ifs at hc with h1
        · exact ihTL _ _ conj (distributeAnd_nodup acc (parse_factor f rest).1) hc
        · exact hacc conj hc
    have hTerm : ∀ toks conj, conj ∈ (parse_term (f + 1) toks).1 → conj.Nodup := by
      intro toks conj hc
      rw [parse_term] at hc
      exact ihTL _ _ conj (fun c hcm => ihF toks c hcm) hc
    have hExprLoop : ∀ acc toks conj, (∀ c ∈ acc, List.Nodup c) →
        conj ∈ (parse_expr_loop (f + 1) acc toks).1 → conj.Nodup := by
      intro acc toks conj hacc hc
      match toks with
      | [] =>
        exact hacc conj hc
      | t :: rest =>
        rw [parse_expr_loop] at hc
        split_ifs at hc with h1
        · refine ihEL _ _ conj ?_ hc
          intro c hcm
          rcases List.mem_append.mp hcm with hcm | hcm
          · exact hacc c hcm
          · exact ihT rest c hcm
        · exact hacc conj hc
    have hExpr : ∀ toks conj, conj ∈ (parse_expr (f + 1) toks).1 → conj.Nodup := by
      intro toks conj hc
      rw [parse_expr] at hc
      exact ihEL _ _ conj (fun c hcm => ihT toks c hcm) hc
    exact ⟨hFactor, hTermLoop, hTerm, hExprLoop, hExpr⟩

/-- Claim C5 (confirmed): for every input query string every conjunction of
the returned DNF is non-empty and free of duplicate terms; the
deduplication (`dict.fromkeys`) keeps the first occurrence of each term in
insertion order — formally it returns a duplicate-free sublist (hence
order-preserving) of its input containing every input element. -/
theorem dnf_conjunction_invariant :
    (∀ query conj, conj ∈ (_parse_boolean_query_to_dnf query).2 →
      conj ≠ [] ∧ conj.Nodup) ∧
    (∀ l : List (List Char), List.Sublist (dedupFirst l) l ∧
      (dedupFirst l).Nodup ∧ ∀ x ∈ l, x ∈ dedupFirst l) := by
  constructor
  · intro query conj hc
    rw [_parse_boolean_query_to_dnf] at hc
    split_ifs at hc with h1
    · simp at hc
    · simp only at hc
      obtain ⟨hmem, hany⟩ := List.mem_filter.mp hc
      constructor
      · obtain ⟨t, ht, -⟩ := List.any_eq_true.mp hany
        exact fun h => by simp [h] at ht
      · exact (parser_nodup (3 * (tokenize query).length + 3)).2.2.2.2
          (tokenize query) conj hmem
  · intro l
    exact ⟨dedupFirst_sublist l, dedupFirst_nodup l, fun x hx => mem_dedupFirst l x hx⟩

/-- Witness for `dnf_conjunction_invariant`: the query `"a AND b AND a"`,
whose single conjunction deduplicates to `["a", "b"]`, and a two-element
list with a duplicate for the `dict.fromkeys` model. -/
theorem dnf_conjunction_invariant_witness :
    (["a".data, "b".data] ≠ ([] : List (List Char)) ∧
      ["a".data, "b".data].Nodup) ∧
    List.Sublist (dedupFirst ["a".data, "b".data, "a".data])
      ["a".data, "b".data, "a".data] ∧
    "b".data ∈ dedupFirst ["a".data, "b".data, "a".data] :=
  ⟨dnf_conjunction_invariant.1 "a AND b AND a".data ["a".data, "b".data] (by decide),
    (dnf_conjunction_invariant.2 ["a".data, "b".data, "a".data]).1,
    (dnf_conjunction_invariant.2 ["a".data, "b".data, "a".data]).2.2
      "b".data (by decide)⟩


/-! ## `fnmatch.fnmatchcase` (used by `file_search` for glob filtering)

`fnmatch.translate` maps `*` to `.*`, `?` to `.`, and `[...]` to a regex
character class (leading `!` negates; an unterminated `[` is a literal);
matching is anchored at both ends and `.` matches every character
(DOTALL). -/

inductive GlobTok where
  | star : GlobTok
  | anyq : GlobTok
  | lit : Char → GlobTok
  | cls : Bool → List Char → List (Char × Char) → GlobTok

/-- Scan for the closing `]` of a character class, collecting the body. -/
def scanCloseAux (acc : List Char) : List Char → Option (List Char × List Char)
  | [] => none
  | ']' :: rest => some (acc.reverse, rest)
  | c :: rest => scanCloseAux (c :: acc) rest

/-- Split a class body into single members and `a-z` ranges (`-` first or
last is a literal member). -/
def parseClsBody : List Char → List Char × List (Char × Char)
  | [] => ([], [])
  | a :: '-' :: b :: rest =>
    let p := parseClsBody rest
    (p.1, (a, b) :: p.2)
  | a :: rest =>
    let p := parseClsBody rest
    (a :: p.1, p.2)

/-- Tokenize a glob pattern; fuel `length + 1` suffices as every step
consumes at least one character. -/
def parseGlobAux : Nat → List Char → List GlobTok
  | 0, _ => []
  | _ + 1, [] => []
  | f + 1, '*' :: r => GlobTok.star :: parseGlobAux f r
  | f + 1, '?' :: r => GlobTok.anyq :: parseGlobAux f r
  | f + 1, '[' :: r =>
    let negr1 : Bool × List Char := match r with
      | '!' :: r1 => (true, r1)
      | _ => (false, r)
    let scanned := match negr1.2 with
      | ']' :: r2 => scanCloseAux [']'] r2
      | _ => scanCloseAux [] negr1.2
    (match scanned with
      | some br =>
        let p := parseClsBody br.1
        GlobTok.cls negr1.1 p.1 p.2 :: parseGlobAux f br.2
      | none => GlobTok.lit '[' :: parseGlobAux f r)
  | f + 1, c :: r => GlobTok.lit c :: parseGlobAux f r

def clsMatch (neg : Bool) (singles : List Char) (ranges : List (Char × Char))
    (d : Char) : Bool :=
  let m := singles.contains d || ranges.any (fun p => p.1 ≤ d ∧ d ≤ p.2)
  if neg then ! m else m

/-- Match glob tokens against a name; each step shrinks
`tokens.length + name.length`, so fuel beyond that sum suffices. -/
def globMatchAux : Nat → List GlobTok → List Char → Bool
  | 0, _, _ => false
  | _ + 1, [], [] => true
  | _ + 1, [], _ :: _ => false
  | f + 1, GlobTok.star :: ps, s =>
    globMatchAux f ps s ||
      (match s with
        | [] => false
        | _ :: s2 => globMatchAux f (GlobTok.star :: ps) s2)
  | _ + 1, GlobTok.anyq :: _, [] => false
  | f + 1, GlobTok.anyq :: ps, _ :: s2 => globMatchAux f ps s2
  | _ + 1, GlobTok.lit _ :: _, [] => false
  | f + 1, GlobTok.lit c :: ps, d :: s2 => (c == d) && globMatchAux f ps s2
  | _ + 1, GlobTok.cls _ _ _ :: _, [] => false
  | f + 1, GlobTok.cls n sg rg :: ps, d :: s2 =>
    clsMatch n sg rg d && globMatchAux f ps s2

def fnmatchcase (name pat : List Char) : Bool :=
  let toks := parseGlobAux (pat.length + 1) pat
  globMatchAux (toks.length + name.length + 2) toks name

/-! ## `file_search` (tools.py lines 476-552) -/

/-- One regular file below the sandbox root, in `rglob` traversal order:
its POSIX relative path and its raw bytes. -/
structure FileEnt where
  rel : List Char
  bytes : List Nat
  deriving DecidableEq

def ALLOWED_EXTENSIONS : List (List Char) := [".txt".data, ".md".data]

/-- `PurePath.name`: the final path component. -/
def pathName (rel : List Char) : List Char := (rel.splitOn '/').getLastD []

/-- `PurePath.suffix`: from the last `.` of the name, unless that dot is
the name's first or last character. -/
def pathSuffix (rel : List Char) : List Char :=
  let name := pathName rel
  if name.contains '.' then
    let after := (name.reverse.takeWhile (fun c => ¬ c = '.')).reverse
    let i := name.length - 1 - after.length
    if 0 < i ∧ i < name.length - 1 then name.drop i else []
  else []

/-- `file_path.suffix.lower() in ALLOWED_EXTENSIONS`. -/
def allowedExt (rel : List Char) : Bool :=
  ALLOWED_EXTENSIONS.contains (lowerStr (pathSuffix rel))

/-- Python `str.strip()`. -/
def pyStrip (s : List Char) : List Char :=
  ((s.dropWhile isPySpace).reverse.dropWhile isPySpace).reverse

/-- Python `str.split()` (no separator): runs of whitespace, no empties. -/
def pySplitWsAux (acc : List Char) : List Char → List (List Char)
  | [] => if acc = [] then [] else [acc.reverse]
  | c :: rest =>
    if isPySpace c then
      if acc = [] then pySplitWsAux [] rest else acc.reverse :: pySplitWsAux [] rest
    else pySplitWsAux (c :: acc) rest

def pySplitWs (s : List Char) : List (List Char) := pySplitWsAux [] s

/-- Expand `a{x,y}b` into `[axb, ayb]`: prefix before the first `{`, inner
between the first `{` and the first `}` (empty when the first `}` precedes
it), suffix after the last `}`; variants are stripped and empties dropped.
Without both braces the glob is used as-is. -/
def braceExpand (g : List Char) : List (List Char) :=
  if g.contains '{' ∧ g.contains '}' then
    let pre := g.takeWhile (fun c => ¬ c = '{')
    let suf := (g.reverse.takeWhile (fun c => ¬ c = '}')).reverse
    let i1 := pre.length + 1
    let i2 := (g.takeWhile (fun c => ¬ c = '}')).length
    let inner := (g.drop i1).take (i2 - i1)
    let variants := ((inner.splitOn ',').map pyStrip).filter (fun v => ¬ v = [])
    variants.map (fun v => pre ++ v ++ suf)
  else [g]

/-- `Config` defaults (no `configs/config.yaml` in the repository). -/
def defaultGlob : List Char := "**/*.{txt,md}".data

def defaultMaxResults : Int := 50

/-- `glob or _config.glob` (the empty string is falsy). -/
def fsGlob (glob : Option (List Char)) : List Char :=
  match glob with
  | some g => if g = [] then defaultGlob else g
  | none => defaultGlob

/-- `max_results or _config.max_results` (`0` is falsy). -/
def fsLimit (max_results : Option Int) : Int :=
  match max_results with
  | some m => if m = 0 then defaultMaxResults else m
  | none => defaultMaxResults

/-- The term sets for a non-empty query: the DNF when boolean syntax was
used and produced conjunctions, else the space-split words as one implicit
AND conjunction, else the whole query as a single term. -/
def fsTermSets (query : List Char) : DNF :=
  let p := _parse_boolean_query_to_dnf query
  if p.1 ∧ ¬ p.2 = [] then p.2
  else
    let words := pySplitWs query
    if 1 < words.length then [words] else [[query]]

/-- Python's substring containment `needle in hay`. -/
def isSubstring (needle : List Char) : List Char → Bool
  | [] => needle.isPrefixOf []
  | c :: rest => needle.isPrefixOf (c :: rest) || isSubstring needle rest

/-- Does a file's decoded content satisfy some conjunction?  Empty term-set
lists fall back to `[[]]`, whose empty conjunction matches everything. -/
def fsContentMatches (termSets : DNF) (caseSensitive : Bool)
    (content : List Char) : Bool :=
  let hay := if caseSensitive then content else lowerStr content
  (if termSets = [] then [[]] else termSets).any (fun conj =>
    (conj.filter (fun t => ¬ t = [])).all (fun t =>
      isSubstring (if caseSensitive then t else lowerStr t) hay))

/-- The per-file test of the `file_search` loop: allowed extension, the
glob filter (skipped when the expanded pattern list is empty), and the
content match. -/
def fsFilePred (patterns : List (List Char)) (termSets : DNF)
    (caseSensitive : Bool) (f : FileEnt) : Bool :=
  allowedExt f.rel &&
  (decide (patterns = []) || patterns.any (fun p => fnmatchcase f.rel p)) &&
  fsContentMatches termSets caseSensitive (utf8DecodeReplace f.bytes)

/-- The collection loop: append each matching file, stop as soon as
`len(matched) >= limit` after an append. -/
def fsLoop (patterns : List (List Char)) (termSets : DNF)
    (caseSensitive : Bool) (limit : Int) :
    List FileEnt → List (List Char) → List (List Char)
  | [], acc => acc.reverse
  | f :: rest, acc =>
    if fsFilePred patterns termSets caseSensitive f then
      if limit ≤ ((f.rel :: acc).length : Int) then (f.rel :: acc).reverse
      else fsLoop patterns termSets caseSensitive limit rest (f.rel :: acc)
    else fsLoop patterns termSets caseSensitive limit rest acc

/-- `file_search(query=None, glob=None, case_sensitive=False,
max_results=None)` over a corpus value. -/
def file_search (corpus : List FileEnt) (query : Option (List Char))
    (glob : Option (List Char)) (case_sensitive : Bool)
    (max_results : Option Int) : List (List Char) :=
  let term_sets : DNF := match query with
    | none => []
    | some q => if q = [] then [] else fsTermSets q
  let patterns := braceExpand (fsGlob glob)
  fsLoop patterns term_sets case_sensitive (fsLimit max_results) corpus []


theorem fsContentMatches_nil (cs : Bool) (content : List Char) :
    fsContentMatches [] cs content = true := by
  simp [fsContentMatches]

/-- The collection loop is `take (limit - len(acc))` of the filtered map,
for accumulators still below the limit. -/
theorem fsLoop_eq_take (patterns : List (List Char)) (termSets : DNF) (cs : Bool)
    (limit : Int) (corpus : List FileEnt) :
    ∀ (acc : List (List Char)), (acc.length : Int) < limit →
      fsLoop patterns termSets cs limit corpus acc =
        acc.reverse ++
          ((corpus.filter (fsFilePred patterns termSets cs)).map FileEnt.rel).take
            (limit - acc.length).toNat := by
  induction corpus with
  | nil =>
    intro acc h
    simp [fsLoop]
  | cons f rest ih =>
    intro acc hacc
    rw [fsLoop]
    by_cases hp : fsFilePred patterns termSets cs f = true
    · rw [if_pos hp]
      by_cases hl : limit ≤ ((f.rel :: acc).length : Int)
      · rw [if_pos hl]
        have h1 : (limit - (acc.length : Int)).toNat = 1 := by
          simp only [List.length_cons] at hl
          push_cast at hl
          omega
        rw [List.filter_cons, if_pos hp, List.map_cons, h1, List.take_succ_cons,
          List.take_zero]
        simp
      · rw [if_neg hl]
        have hlt : (((f.rel :: acc).length : Int)) < limit := by
          push_cast at hl ⊢
          omega
        rw [ih (f.rel :: acc) hlt, List.filter_cons, if_pos hp, List.map_cons]
        have h2 : (limit - (acc.length : Int)).toNat =
            ((limit - ((f.rel :: acc).length : Int)).toNat) + 1 := by
          simp only [List.length_cons]
          push_cast
          omega
        rw [h2, List.take_succ_cons]
        simp
    · rw [if_neg hp, ih acc hacc, List.filter_cons, if_neg hp]

/-- Claim C10, counterexample: with the empty query and the glob `"*{}"`,
whose brace expansion yields no patterns, the glob filter is skipped
entirely: `file_search` returns `d/a.md` although there is no expanded
glob pattern it could match, so "returns every allowed-extension file that
matches at least one expanded glob pattern" (which would demand an empty
result here) is false. -/
theorem file_search_degenerate_glob_counterexample :
    braceExpand (fsGlob (some "*\x7b\x7d".data)) = [] ∧
    file_search [⟨"d/a.md".data, [104]⟩] none (some "*\x7b\x7d".data) false none =
      ["d/a.md".data] := by decide

/-- Claim C10 (amended): with a `None` or empty query the term-set list is
empty and the empty conjunction matches every file, so for **any** glob
whose brace expansion yields at least one pattern `file_search` returns
the allowed-extension files matching some expanded pattern, in traversal
order, truncated to the `max_results` limit; when the expansion is empty
(degenerate braces) the glob filter is skipped and every allowed-extension
file is returned, truncated likewise. -/
theorem file_search_empty_query_amended (corpus : List FileEnt)
    (q g : Option (List Char)) (cs : Bool) (mr : Option Int)
    (hq : q = none ∨ q = some []) (hmr : 1 ≤ fsLimit mr) :
    (¬ braceExpand (fsGlob g) = [] →
      file_search corpus q g cs mr =
        ((corpus.filter (fun f => allowedExt f.rel &&
            (braceExpand (fsGlob g)).any (fun p => fnmatchcase f.rel p))).map
          FileEnt.rel).take (fsLimit mr).toNat) ∧
    (braceExpand (fsGlob g) = [] →
      file_search corpus q g cs mr =
        ((corpus.filter (fun f => allowedExt f.rel)).map FileEnt.rel).take
          (fsLimit mr).toNat) := by
  have hts : file_search corpus q g cs mr =
      fsLoop (braceExpand (fsGlob g)) [] cs (fsLimit mr) corpus [] := by
    rcases hq with rfl | rfl <;> rfl
  have hrun : fsLoop (braceExpand (fsGlob g)) [] cs (fsLimit mr) corpus [] =
      ((corpus.filter (fsFilePred (braceExpand (fsGlob g)) [] cs)).map
        FileEnt.rel).take (fsLimit mr).toNat := by
    have h := fsLoop_eq_take (braceExpand (fsGlob g)) [] cs (fsLimit mr) corpus []
      (by simpa using hmr)
    simpa using h
  constructor
  · intro hpat
    have hpred : ∀ f ∈ corpus, fsFilePred (braceExpand (fsGlob g)) [] cs f =
        (allowedExt f.rel &&
          (braceExpand (fsGlob g)).any (fun p => fnmatchcase f.rel p)) := by
      intro f _
      have h1 : decide ((braceExpand (fsGlob g)) = ([] : List (List Char))) = false := by
        simpa using hpat
      simp [fsFilePred, h1, fsContentMatches_nil]
    rw [hts, hrun, List.filter_congr hpred]
  · intro hpat
    have hpred : ∀ f ∈ corpus, fsFilePred (braceExpand (fsGlob g)) [] cs f =
        allowedExt f.rel := by
      intro f _
      rw [hpat]
      simp [fsFilePred, fsContentMatches_nil]
    rw [hts, hrun, List.filter_congr hpred]

/-- Witness for `file_search_empty_query_amended`, exercising both the
normal default-glob branch and the degenerate empty-expansion branch. -/
theorem file_search_empty_query_amended_witness :
    file_search [⟨"d/a.md".data, [104]⟩, ⟨"d/b.py".data, [104]⟩,
        ⟨"d/c.txt".data, [104]⟩] none none false none =
      ["d/a.md".data, "d/c.txt".data] ∧
    file_search [⟨"d/a.md".data, [104]⟩, ⟨"d/b.py".data, [104]⟩]
        (some []) (some "*\x7b\x7d".data) false none = ["d/a.md".data] := by
  constructor
  · rw [(file_search_empty_query_amended
      [⟨"d/a.md".data, [104]⟩, ⟨"d/b.py".data, [104]⟩, ⟨"d/c.txt".data, [104]⟩]
      none none false none (Or.inl rfl) (by decide)).1 (by decide)]
    decide
  · rw [(file_search_empty_query_amended
      [⟨"d/a.md".data, [104]⟩, ⟨"d/b.py".data, [104]⟩]
      (some []) (some "*\x7b\x7d".data) false none (Or.inr rfl) (by decide)).2
      (by decide)]
    decide

/-- Claim C7 (amended): for a query whose boolean compilation succeeds
(`used_boolean` with a non-empty DNF) and a glob expanding to at least one
pattern, `file_search` returns the **first `max_results`** (in filesystem
traversal order) of the allowed-extension files matching some expanded
pattern in which some DNF conjunction has all of its (non-empty) terms
present in the decoded content, case-folded unless `case_sensitive` — all
such files only when at most `max_results` of them exist. -/
theorem file_search_boolean (corpus : List FileEnt) (q : List Char)
    (g : Option (List Char)) (cs : Bool) (mr : Option Int)
    (hq : ¬ q = [])
    (hb : (_parse_boolean_query_to_dnf q).1 = true)
    (hd : ¬ (_parse_boolean_query_to_dnf q).2 = [])
    (hpat : ¬ braceExpand (fsGlob g) = [])
    (hmr : 1 ≤ fsLimit mr) :
    file_search corpus (some q) g cs mr =
      ((corpus.filter (fun f => allowedExt f.rel &&
          ((braceExpand (fsGlob g)).any (fun p => fnmatchcase f.rel p) &&
            (_parse_boolean_query_to_dnf q).2.any (fun conj =>
              (conj.filter (fun t => ¬ t = [])).all (fun t =>
                isSubstring (if cs then t else lowerStr t)
                  (if cs then utf8DecodeReplace f.bytes
                   else lowerStr (utf8DecodeReplace f.bytes))))))).map
        FileEnt.rel).take (fsLimit mr).toNat := by
  have hts : fsTermSets q = (_parse_boolean_query_to_dnf q).2 := by
    rw [fsTermSets]
    simp [hb, hd]
  have hpred : ∀ f ∈ corpus,
      fsFilePred (braceExpand (fsGlob g)) (fsTermSets q) cs f =
      (allowedExt f.rel &&
        ((braceExpand (fsGlob g)).any (fun p => fnmatchcase f.rel p) &&
          (_parse_boolean_query_to_dnf q).2.any (fun conj =>
            (conj.filter (fun t => ¬ t = [])).all (fun t =>
              isSubstring (if cs then t else lowerStr t)
                (if cs then utf8DecodeReplace f.bytes
                 else lowerStr (utf8DecodeReplace f.bytes)))))) := by
    intro f _
    rw [fsFilePred, fsContentMatches, hts]
    have h1 : decide ((braceExpand (fsGlob g)) = ([] : List (List Char))) = false := by
      simpa using hpat
    have h2 : ((if (_parse_boolean_query_to_dnf q).2 = ([] : DNF) then [[]]
        else (_parse_boolean_query_to_dnf q).2)) = (_parse_boolean_query_to_dnf q).2 := by
      simp [hd]
    rw [h1, h2]
    simp [Bool.and_assoc]
  have hrun := fsLoop_eq_take (braceExpand (fsGlob g)) (fsTermSets q) cs
    (fsLimit mr) corpus [] (by simpa using hmr)
  rw [show file_search corpus (some q) g cs mr =
      fsLoop (braceExpand (fsGlob g)) (if q = [] then [] else fsTermSets q) cs
        (fsLimit mr) corpus [] from rfl,
    if_neg hq, hrun, List.filter_congr hpred]
  simp

/-- Witness for `file_search_boolean`: a three-file corpus where only
`gesetze/bgb.md` contains both `BGB` and `Kündigung` (end-to-end
scenario 2 of the spec). -/
theorem file_search_boolean_witness :
    file_search [⟨"gesetze/bgb.md".data, utf8Encode "Das BGB regelt die Kündigung.".data⟩,
        ⟨"gesetze/hgb.md".data, utf8Encode "Nur BGB hier.".data⟩,
        ⟨"urteile/u1.txt".data, utf8Encode "Nur Kündigung hier.".data⟩]
      (some "BGB AND Kündigung".data) none false none = ["gesetze/bgb.md".data] := by
  rw [file_search_boolean
    [⟨"gesetze/bgb.md".data, utf8Encode "Das BGB regelt die Kündigung.".data⟩,
      ⟨"gesetze/hgb.md".data, utf8Encode "Nur BGB hier.".data⟩,
      ⟨"urteile/u1.txt".data, utf8Encode "Nur Kündigung hier.".data⟩]
    "BGB AND Kündigung".data none false none
    (by decide) (by decide) (by decide) (by decide) (by decide)]
  decide

/-- Fifty-one single-line `.md` files, every one of which contains both
query terms `x` and `y` (content `b"x y"`). -/
def c7Corpus : List FileEnt :=
  (List.range 51).map (fun i => ⟨List.replicate (i + 1) 'a' ++ ".md".data, [120, 32, 121]⟩)

/-- Claim C7, counterexample: with the default `max_results = 50`, the
51st matching file is in the corpus, has an allowed extension, matches the
glob, and satisfies the DNF conjunction `["x","y"]`, yet `file_search`
does not return it — the result is the first 50 matches, not "exactly the
files" satisfying the predicate. -/
theorem file_search_cap_counterexample :
    (⟨List.replicate 51 'a' ++ ".md".data, [120, 32, 121]⟩ : FileEnt) ∈ c7Corpus ∧
    allowedExt (List.replicate 51 'a' ++ ".md".data) = true ∧
    fnmatchcase (List.replicate 51 'a' ++ ".md".data) "*".data = true ∧
    (_parse_boolean_query_to_dnf "x AND y".data).2.any (fun conj =>
      conj.all (fun t => isSubstring (lowerStr t)
        (lowerStr (utf8DecodeReplace [120, 32, 121])))) = true ∧
    ¬ ((List.replicate 51 'a' ++ ".md".data) ∈
        file_search c7Corpus (some "x AND y".data) (some "*".data) false none) := by
  decide


/-! ## `search_rg` post-processing (tools.py lines 241-473)

The ripgrep subprocess is an external collaborator (§6 of the spec); its
assembled per-line matches enter the model as a list.  What the repository
itself contributes — the early missing-binary error, the year sort and the
truncation — is embedded below. -/

/-- One assembled line-level hit (`{file, line, text, context, section,
byte_range}`). -/
structure RgHit where
  file : List Char
  line : Nat
  text : List Char
  context : List (Nat × List Char)
  sectionHeader : Option (List Char)
  byteRange : Nat × Nat
  deriving DecidableEq

/-- `extract_year_from_path`: `re.search(r'/(\d{4})\.md$', path)` — the
path ends in `/` + four digits + `.md`; otherwise the sort key is 9999. -/
def extract_year_from_path (m : RgHit) : Nat :=
  match m.file.reverse with
  | 'd' :: 'm' :: '.' :: d1 :: d2 :: d3 :: d4 :: '/' :: _ =>
    if d1.isDigit ∧ d2.isDigit ∧ d3.isDigit ∧ d4.isDigit then
      (d4.toNat - 48) * 1000 + (d3.toNat - 48) * 100 +
        (d2.toNat - 48) * 10 + (d1.toNat - 48)
    else 9999
  | _ => 9999

/-- Stable insertion for a descending key sort: a new element goes after
every element with a key at least as large (Python `list.sort` is stable,
`reverse=True` reverses comparisons, not the result). -/
def insertDesc (key : RgHit → Nat) (x : RgHit) : List RgHit → List RgHit
  | [] => [x]
  | y :: ys => if key x ≤ key y then y :: insertDesc key x ys else x :: y :: ys

/-- `matches.sort(key=extract_year_from_path, reverse=True)`: any stable
descending sort computes the same list; insertion sort is used here. -/
def sortByKeyDesc (key : RgHit → Nat) (l : List RgHit) : List RgHit :=
  l.foldl (fun acc x => insertDesc key x acc) []

/-- The final two lines of `search_rg`: sort year-descending, truncate to
`max_results`. -/
def searchRgSortTrunc (ms : List RgHit) (max_results : Nat) : List RgHit :=
  (sortByKeyDesc extract_year_from_path ms).take max_results

theorem mem_insertDesc (key : RgHit → Nat) (x a : RgHit) (l : List RgHit)
    (h : a ∈ insertDesc key x l) : a = x ∨ a ∈ l := by
  induction l with
  | nil => simpa [insertDesc] using h
  | cons y ys ih =>
    rw [insertDesc] at h
    split_ifs at h with h1
    · rcases List.mem_cons.mp h with rfl | h
      · exact Or.inr (List.mem_cons_self _ _)
      · rcases ih h with rfl | h
        · exact Or.inl rfl
        · exact Or.inr (List.mem_cons_of_mem _ h)
    · rcases List.mem_cons.mp h with rfl | h
      · exact Or.inl rfl
      · exact Or.inr h

theorem insertDesc_sorted (key : RgHit → Nat) (x : RgHit) (l : List RgHit)
    (h : List.Pairwise (fun a b => key b ≤ key a) l) :
    List.Pairwise (fun a b => key b ≤ key a) (insertDesc key x l) := by
  induction l with
  | nil => simp [insertDesc]
  | cons y ys ih =>
    rw [insertDesc]
    obtain ⟨hy, hys⟩ := List.pairwise_cons.mp h
    split_ifs with h1
    · refine List.pairwise_cons.mpr ⟨?_, ih hys⟩
      intro a ha
      rcases mem_insertDesc key x a ys ha with rfl | ha
      · exact h1
      · exact hy a ha
    · refine List.pairwise_cons.mpr ⟨?_, h⟩
      intro a ha
      rcases List.mem_cons.mp ha with rfl | ha
      · omega
      · exact le_trans (hy a ha) (by omega)

theorem insertDesc_perm (key : RgHit → Nat) (x : RgHit) (l : List RgHit) :
    (insertDesc key x l).Perm (x :: l) := by
  induction l with
  | nil => simp [insertDesc]
  | cons y ys ih =>
    rw [insertDesc]
    split_ifs with h1
    · exact (ih.cons y).trans (List.Perm.swap x y ys)
    · exact List.Perm.refl _

theorem sortByKeyDesc_foldl_perm (key : RgHit → Nat) (l acc : List RgHit) :
    (l.foldl (fun acc x => insertDesc key x acc) acc).Perm (acc ++ l) := by
  induction l generalizing acc with
  | nil => simp
  | cons x l ih =>
    rw [List.foldl_cons]
    refine (ih (insertDesc key x acc)).trans ?_
    refine (List.Perm.append_right l (insertDesc_perm key x acc)).trans ?_
    exact List.perm_middle.symm

theorem sortByKeyDesc_foldl_sorted (key : RgHit → Nat) (l : List RgHit) :
    ∀ acc, List.Pairwise (fun a b => key b ≤ key a) acc →
      List.Pairwise (fun a b => key b ≤ key a)
        (l.foldl (fun acc x => insertDesc key x acc) acc) := by
  induction l with
  | nil => intro acc h; simpa using h
  | cons x l ih =>
    intro acc h
    rw [List.foldl_cons]
    exact ih _ (insertDesc_sorted key x acc h)

/-- Claim C8 (confirmed): the returned match list of `search_rg` has length
at most `max_results` and is sorted year-descending by
`extract_year_from_path` (files without a trailing `/NNNN.md` year carry
the key 9999 and therefore sort first, up to stable ties); the sort is a
permutation of the assembled matches. -/
theorem search_rg_sorted_capped (ms : List RgHit) (max_results : Nat) :
    (searchRgSortTrunc ms max_results).length ≤ max_results ∧
    List.Pairwise (fun a b => extract_year_from_path b ≤ extract_year_from_path a)
      (searchRgSortTrunc ms max_results) ∧
    (sortByKeyDesc extract_year_from_path ms).Perm ms := by
  refine ⟨?_, ?_, ?_⟩
  · exact List.length_take_le _ _
  · exact List.Pairwise.sublist (List.take_sublist _ _)
      (sortByKeyDesc_foldl_sorted extract_year_from_path ms [] (by simp))
  · simpa using sortByKeyDesc_foldl_perm extract_year_from_path ms []

/-! ## Missing-matcher error (`search_rg`, tools.py lines 264-266) -/

def rgNotFoundMsg : List Char := "ripgrep (rg) not found on PATH".data

structure SearchRgResult where
  error : Option (List Char)
  matchList : List RgHit
  deriving DecidableEq

/-- The head of `search_rg`: `rg_path = shutil.which("rg")` (an external
lookup, passed in), and `if not rg_path: return {"error": ..., "matches":
[]}`.  The success branch runs the subprocess pipeline and ends in
`searchRgSortTrunc` over the assembled hits. -/
def search_rg_entry (rgPath : Option (List Char)) (assembled : List RgHit)
    (max_results : Nat) : SearchRgResult :=
  match rgPath with
  | none => ⟨some rgNotFoundMsg, []⟩
  | some _ => ⟨none, searchRgSortTrunc assembled max_results⟩

/-- The process environment as the tools see it: the corpus below the
sandbox root and the result of locating `rg` on `PATH`. -/
structure ToolEnv where
  corpus : List FileEnt
  rgPath : Option (List Char)

def findFile (corpus : List FileEnt) (rel : List Char) : Option (List Nat) :=
  match corpus.find? (fun f => f.rel == rel) with
  | some f => some f.bytes
  | none => none

/-- `read_file_range` as run in an environment (path resolved against the
corpus). -/
def env_read_file_range (env : ToolEnv) (rel : List Char) (s e : Int)
    (c ml : Option Int) : Option RangeResult :=
  (findFile env.corpus rel).map (fun B => read_file_range B s e c ml)

/-- `file_search` as run in an environment. -/
def env_file_search (env : ToolEnv) (q g : Option (List Char)) (cs : Bool)
    (mr : Option Int) : List (List Char) :=
  file_search env.corpus q g cs mr

/-- Claim C9 (confirmed): when `rg` is not found on `PATH`, `search_rg`
returns the structured payload `{"error": "ripgrep (rg) not found on
PATH", "matches": []}` instead of raising, and neither `read_file_range`
nor `file_search` depends on the `rg` lookup at all: their results are
identical in environments that differ only in `rgPath`. -/
theorem search_rg_missing_matcher (env : ToolEnv) (assembled : List RgHit)
    (cap : Nat) :
    (env.rgPath = none →
      search_rg_entry env.rgPath assembled cap = ⟨some rgNotFoundMsg, []⟩) ∧
    (∀ p rel s e c ml,
      env_read_file_range { env with rgPath := p } rel s e c ml =
        env_read_file_range env rel s e c ml) ∧
    (∀ p q g cs mr,
      env_file_search { env with rgPath := p } q g cs mr =
        env_file_search env q g cs mr) := by
  refine ⟨fun h => ?_, fun p rel s e c ml => rfl, fun p q g cs mr => rfl⟩
  rw [h, search_rg_entry]

/-- Witness for `search_rg_missing_matcher` in an `rg`-less environment. -/
theorem search_rg_missing_matcher_witness :
    search_rg_entry (ToolEnv.mk [] none).rgPath [] 20 =
      ⟨some rgNotFoundMsg, []⟩ :=
  (search_rg_missing_matcher (ToolEnv.mk [] none) [] 20).1 rfl

end LegalGenius
